import Mathlib

/-!
Verification development for the codebase-explorer indexing engine.

The definitions below are a shallow embedding of the Python sources:
`src/code_explorer/utils.py` (skip policy), `src/code_explorer/config.py`
(extension table), `src/busy_buddy/codebase_explorer/parsers.py` (parser
entity/import construction) and `src/busy_buddy/codebase_explorer/index.py`
(`CodebaseIndex.build_index`, `_index_file`, `_resolve_import`,
`search_entities`).

Modelling conventions:
* A filesystem path is a `List String` of segments (as in `pathlib.Path.parts`;
  pathlib drops empty segments produced by repeated separators, mirrored by
  `segsOf`).  The filesystem visible to the index is the list of regular files
  under the root, each given by its root-relative segment list; `exists()`
  checks and `rglob` traversal range over exactly these files (candidate paths
  outside the root therefore never exist, so `Path.relative_to` never raises).
* Python strings are Lean `String`s; `str.strip`/`lstrip` with a character set
  are modelled with `dropWhile` over the character list.
* Mutable state of `CodebaseIndex` (`self.entities`, `self.dependency_graph`,
  the progress counters) is threaded explicitly as `IndexState`.  The
  `entities` dict is an association list with Python-dict semantics: insertion
  replaces in place on an existing key, otherwise appends.  The bloom filter
  and the embedding caches are not observed by any claim and are omitted.
* Exceptions are modelled with `Option`: a file whose `read_text` raises has
  `content = none`; a parser/extractor run that raises returns `none`.  The
  `try`/`except` of `_index_file` keeps every mutation performed before the
  raising step, as in Python.
* Tree-sitter itself is not executable here, so the grammar-level work of the
  parser is a parameter (`ParserModel.rawParse` / `rawImports`); the guard
  logic and the entity-id/field construction of `parse_file` are translated
  from the source.
-/

namespace CodeExplorer

/-- Python `s.startswith(pre)`. -/
def strStartsWith (s pre : String) : Bool :=
  pre.data.isPrefixOf s.data

/-- Python `s.lower()` (per-character lowering; identical on ASCII input). -/
def strLower (s : String) : String :=
  String.mk (s.data.map Char.toLower)

/-- Python `s.strip('\x27"')`: remove quote characters from both ends. -/
def stripQuotes (s : String) : String :=
  let isQ : Char → Bool := fun c => c = '\'' || c = '"'
  String.mk (((s.data.dropWhile isQ).reverse.dropWhile isQ).reverse)

/-- Python `s.lstrip('./')`: remove leading `.` and `/` characters. -/
def lstripDotSlash (cs : List Char) : List Char :=
  cs.dropWhile (fun c => c = '.' || c = '/')

/-- Index of the last `.` in a character list, if any. -/
def lastDotIdx : List Char → Option Nat
  | [] => none
  | c :: rest =>
    match lastDotIdx rest with
    | some i => some (i + 1)
    | none => if c = '.' then some 0 else none

/-- `pathlib.PurePath.suffix` of a file name: the substring from the last dot,
provided that dot is neither the first nor the last character. -/
def pySuffix (name : String) : String :=
  let cs := name.data
  match lastDotIdx cs with
  | some i => if 0 < i && i + 1 < cs.length then String.mk (cs.drop i) else ""
  | none => ""

/-- Whether `sub` occurs as a contiguous run inside `hay` (checked at every
suffix). -/
def hasRun (sub : List Char) : List Char → Bool
  | [] => sub.isEmpty
  | c :: rest => sub.isPrefixOf (c :: rest) || hasRun sub rest

/-- Python `sub in hay` (substring containment). -/
def strContains (hay sub : String) : Bool :=
  hasRun sub.data hay.data

/-- Python `s.split(sep)` for a single-character separator (empty pieces are
kept, as in Python). -/
def splitChar (sep : Char) : List Char → List String
  | [] => [""]
  | c :: rest =>
    if c = sep then "" :: splitChar sep rest
    else
      match splitChar sep rest with
      | [] => [String.mk [c]]
      | piece :: pieces => (String.mk (c :: piece.data)) :: pieces

/-- Segments contributed by a string operand of `pathlib` path division:
split on `/`, dropping empty parts. -/
def segsOf (s : String) : List String :=
  (splitChar '/' s.data).filter (fun p => p ≠ "")

/-- Render a root-relative segment list the way `str(path.relative_to(root))`
does (posix separators). -/
def relStr (segs : List String) : String :=
  String.intercalate "/" segs

/-! ## Skip policy (`should_skip_path`, src/code_explorer/utils.py) -/

/-- The `default_skip` set of `should_skip_path`. -/
def defaultSkipNames : List String :=
  [".git", ".svn", ".hg",
   "node_modules", "bower_components",
   "venv", ".venv", "env", ".env", "__pycache__",
   "target", "build", "dist", "out",
   ".pytest_cache", ".tox", ".coverage",
   ".idea", ".vscode", ".settings",
   "vendor",
   ".DS_Store", "Thumbs.db"]

/-- The `skip_extensions` set of `should_skip_path`. -/
def skipExtensionNames : List String :=
  [".pyc", ".pyo", ".so", ".dll", ".dylib", ".exe", ".bin"]

/-- The per-segment test of `should_skip_path`'s loop over `path.parts`. -/
def partHit (p : String) : Bool :=
  (strStartsWith p "." && p ≠ ".") || p ∈ defaultSkipNames

/-- `should_skip_path` on a path given by its parts (the path's suffix is the
suffix of its last part). -/
def shouldSkipParts (parts : List String) : Bool :=
  parts.any partHit || pySuffix (parts.getLastD "") ∈ skipExtensionNames

/-- `pathlib` parts of a path string: a leading `/` is the root part, the
remaining segments are the slash-separated non-empty components. -/
def pyParts (s : String) : List String :=
  (if strStartsWith s "/" then ["/"] else []) ++ segsOf s

/-- `should_skip_path(Path(s))` with no extra `skip_patterns`. -/
def shouldSkipPath (s : String) : Bool :=
  shouldSkipParts (pyParts s)

/-! ## Language registry (`EXTENSION_TO_LANGUAGE`, src/code_explorer/config.py) -/

/-- `EXTENSION_TO_LANGUAGE`, in source order (Python dicts iterate in insertion
order). -/
def extensionToLanguage : List (String × String) :=
  [(".py", "python"),
   (".js", "javascript"), (".jsx", "javascript"), (".cjs", "javascript"),
   (".mjs", "javascript"),
   (".ts", "typescript"), (".tsx", "typescript"), (".mts", "typescript"),
   (".java", "java"),
   (".go", "go"),
   (".rs", "rust"),
   (".c", "c"), (".cpp", "cpp"), (".cc", "cpp"), (".cxx", "cpp"),
   (".h", "c"), (".hpp", "cpp"),
   (".cs", "c_sharp"),
   (".rb", "ruby"), (".php", "php"), (".swift", "swift"), (".kt", "kotlin"),
   (".scala", "scala"), (".r", "r"), (".m", "objc"), (".mm", "objc")]

/-- `EXTENSION_TO_LANGUAGE.keys()` in iteration order. -/
def extensionOrder : List String :=
  extensionToLanguage.map Prod.fst

/-- `EXTENSION_TO_LANGUAGE.get(ext)`. -/
def extLang (ext : String) : Option String :=
  (extensionToLanguage.find? (fun kv => kv.1 = ext)).map Prod.snd

/-! ## Data model (`CodeEntity`, src/code_explorer/models.py)

Only the fields observed by the claims are kept (`summary`, `dependencies`,
`ast_hash`, `embedding`, `metadata` are never read by the indexed-state
invariants under verification; `ast_hash` is a pure function of `content`). -/

structure CodeEntity where
  path : String
  type : String
  name : String
  content : String
deriving DecidableEq, Repr

/-- One definition extracted by the grammar-level part of a parser run:
the declared name, the entity kind, and the bounded content excerpt. -/
structure ParsedDef where
  name : String
  type : String
  excerpt : String
deriving DecidableEq, Repr

/-- Abstraction of the tree-sitter machinery inside `TreeSitterParser`.
`supported` is the key set of `self.parsers`; `rawParse`/`rawImports` are the
grammar-level extraction on (content, path), returning `none` when the
underlying tree-sitter call raises. -/
structure ParserModel where
  supported : List String
  rawParse : String → String → Option (List ParsedDef)
  rawImports : String → String → Option (List String)

/-- A regular file under the index root: root-relative path segments and its
text content (`none` when `read_text` raises, e.g. a non-UTF-8 file). -/
structure FileRec where
  relSegs : List String
  content : Option String
deriving DecidableEq, Repr

/-- Last segment of a file path (`Path.name`). -/
def lastSeg (segs : List String) : String :=
  segs.getLastD ""

/-- `TreeSitterParser.parse_file(content, file_path)`: resolve the language
from the file's extension; unsupported language means no entities; otherwise
run the grammar extraction and build `id ↦ CodeEntity` pairs with
`id = file_path + "::" + name` (parsers.py lines 84-123).  `none` models the
whole call raising. -/
def tsParseFile (pm : ParserModel) (content filePath : String) :
    Option (List (String × CodeEntity)) :=
  match extLang (pySuffix (lastSeg (segsOf filePath))) with
  | none => some []
  | some lang =>
    if lang ∈ pm.supported then
      (pm.rawParse content filePath).map (fun defs =>
        defs.map (fun d =>
          (filePath ++ "::" ++ d.name,
           { path := filePath, type := d.type, name := d.name,
             content := d.excerpt })))
    else some []

/-- `TreeSitterParser.extract_imports(content, file_path)`: `[]` for an
unsupported language, the grammar-level extraction otherwise (parsers.py
lines 183-207). -/
def tsExtractImports (pm : ParserModel) (content filePath : String) :
    Option (List String) :=
  match extLang (pySuffix (lastSeg (segsOf filePath))) with
  | none => some []
  | some lang =>
    if lang ∈ pm.supported then pm.rawImports content filePath
    else some []

/-! ## Import resolver (`_resolve_import`, index.py lines 121-163) -/

/-- Absolute path of a file record under the given root. -/
def absPath (root : List String) (f : FileRec) : List String :=
  root ++ f.relSegs

/-- `candidate.exists()`: the candidate is one of the regular files under the
root. -/
def pathExists (fs : List FileRec) (root : List String) (c : List String) : Bool :=
  fs.any (fun f => absPath root f = c)

/-- The `while import_name.startswith('../')` loop: move `base_dir` one level
up and strip the three consumed characters, repeatedly. -/
def consumeDots (base : List String) : List Char → List String × List Char
  | '.' :: '.' :: '/' :: rest => consumeDots base.dropLast rest
  | cs => (base, cs)

/-- The three relative candidates built for one extension
(`base_dir / f"{name}{ext}"`, `base_dir / name / f"index{ext}"`,
`base_dir / name / f"__init__{ext}"`). -/
def mkRelCands (base : List String) (name : String) (ext : String) :
    List (List String) :=
  [base ++ segsOf (name ++ ext),
   base ++ segsOf name ++ ["index" ++ ext],
   base ++ segsOf name ++ ["__init__" ++ ext]]

/-- `import_name.replace('.', '/')`: `.` is a single character, so this is a
character map. -/
def slashDots (cs : List Char) : List Char :=
  cs.map (fun c => if c = '.' then '/' else c)

/-- `s.replace('::', '/')`: replace non-overlapping `::` runs left to right. -/
def slashColons : List Char → List Char
  | ':' :: ':' :: rest => '/' :: slashColons rest
  | c :: rest => c :: slashColons rest
  | [] => []

/-- `'/'.join(parts)` for the absolute branch, where
`parts = import_name.replace('.', '/').replace('::', '/').split('/')`:
joining the `'/'`-split pieces back with `'/'` reproduces the replaced
string, so this is the doubly-replaced import name. -/
def absJoined (name : String) : String :=
  String.mk (slashColons (slashDots name.data))

/-- `pathlib` division `base / s` for a string operand: when `s` is absolute
(starts with `/`) the left operand is discarded and the result is the
absolute path `s` itself; otherwise the segments of `s` are appended.
Absolute paths are segment lists after the leading `/`, so `/x.py` is
`["x.py"]`.  (Runs of repeated slashes collapse either way, as in
`segsOf`.) -/
def pyJoin (base : List String) (s : String) : List String :=
  if strStartsWith s "/" then segsOf s else base ++ segsOf s

/-- The three candidates built for one extension in the absolute branch
(`root_path / f"{joined}{ext}"`, `root_path / joined / f"index{ext}"`,
`root_path / joined / f"__init__{ext}"`).  By pathlib semantics the joins
stay under the root only while `joined` is not absolute; a `joined` string
beginning with `/` (raw imports starting with `/`, or with `::` which
`replace('::', '/')` turns into a leading `/`) discards the root.  The
`index`/`__init__` components never start with `/`, so they always append
onto `root_path / joined`. -/
def mkAbsCands (root : List String) (name : String) (ext : String) :
    List (List String) :=
  [pyJoin root (absJoined name ++ ext),
   pyJoin root (absJoined name) ++ ["index" ++ ext],
   pyJoin root (absJoined name) ++ ["__init__" ++ ext]]

/-- The nested candidate loops: for each extension in table order, return the
first of its three candidates that exists; fall through to the next extension
otherwise. -/
def firstExisting (fs : List FileRec) (root : List String)
    (mk : String → List (List String)) : List String → Option (List String)
  | [] => none
  | ext :: rest =>
    match (mk ext).find? (fun c => pathExists fs root c) with
    | some c => some c
    | none => firstExisting fs root mk rest

/-- `_resolve_import(import_name, from_file)`.  `fromFile` is the absolute
segment path of the importing file; the result is
`str(candidate.relative_to(root))` for the first existing candidate. -/
def resolveImport (fs : List FileRec) (root : List String)
    (fromFile : List String) (rawImp : String) : Option String :=
  let name := stripQuotes rawImp
  let found :=
    match name.data with
    | '.' :: _ =>
      -- relative branch: start at the importing file's directory
      let (base, rest) := consumeDots fromFile.dropLast name.data
      let rest := lstripDotSlash rest
      firstExisting fs root (mkRelCands base (String.mk rest)) extensionOrder
    | _ =>
      firstExisting fs root (mkAbsCands root name) extensionOrder
  found.map (fun c => relStr (c.drop root.length))

/-! ## Index state and build (`CodebaseIndex`, index.py) -/

/-- The observable mutable state of a `CodebaseIndex` during `build_index`:
the `entities` dict (insertion-ordered association list), the node and edge
sets of the `networkx.DiGraph`, and the two progress counters. -/
structure IndexState where
  entities : List (String × CodeEntity)
  nodes : List String
  edges : List (String × String)
  fileCount : Nat
  skippedCount : Nat
deriving DecidableEq, Repr

/-- The freshly constructed index (`CodebaseIndex.__init__`). -/
def emptyState : IndexState :=
  { entities := [], nodes := [], edges := [], fileCount := 0, skippedCount := 0 }

/-- Python dict assignment `d[k] = v`: replace in place when the key exists,
append otherwise. -/
def insertA (m : List (String × CodeEntity)) (k : String) (v : CodeEntity) :
    List (String × CodeEntity) :=
  match m with
  | [] => [(k, v)]
  | (k', v') :: rest =>
    if k' = k then (k, v) :: rest else (k', v') :: insertA rest k v

/-- `DiGraph.add_node` (a no-op on an existing node). -/
def addNode (ns : List String) (n : String) : List String :=
  if n ∈ ns then ns else ns ++ [n]

/-- `DiGraph.add_edge` (a no-op on an existing edge; endpoint nodes are
created as needed). -/
def addEdge (st : IndexState) (u v : String) : IndexState :=
  { st with
    nodes := addNode (addNode st.nodes u) v,
    edges := if (u, v) ∈ st.edges then st.edges else st.edges ++ [(u, v)] }

/-- The file entity created in `_index_file` (lines 89-95): keyed by the
root-relative path, named after the file, excerpting the first 500 characters. -/
def fileEntity (rel : String) (name : String) (content : String) : CodeEntity :=
  { path := rel, type := "file", name := name, content := content.take 500 }

/-- The loop body `for entity_id, entity in entities.items()` of `_index_file`
(lines 102-106): store the entity, add its node, and link it to its file. -/
def addDefEntity (rel : String) (st : IndexState)
    (kv : String × CodeEntity) : IndexState :=
  let st := { st with entities := insertA st.entities kv.1 kv.2 }
  let st := { st with nodes := addNode st.nodes kv.1 }
  addEdge st kv.1 rel

/-- The loop body `for imp in imports` of `_index_file` (lines 110-115):
resolve, then add a local or an `external:`-namespaced edge. -/
def addImportEdge (fs : List FileRec) (root : List String)
    (fromFile : List String) (rel : String) (st : IndexState)
    (imp : String) : IndexState :=
  match resolveImport fs root fromFile imp with
  | some resolved => addEdge st rel resolved
  | none => addEdge st rel ("external:" ++ imp)

/-- `_index_file(file_path)` (lines 79-119).  The `try` body runs in source
order; an exception at any step (`read_text`, the parser, the extractor) is
caught by the trailing `except`, keeping every mutation already performed. -/
def indexFile (pm : ParserModel) (fs : List FileRec) (root : List String)
    (st : IndexState) (f : FileRec) : IndexState :=
  match f.content with
  | none => st
  | some content =>
    let rel := relStr f.relSegs
    let st := { st with
      entities := insertA st.entities rel (fileEntity rel (lastSeg f.relSegs) content),
      nodes := addNode st.nodes rel }
    match tsParseFile pm content rel with
    | none => st
    | some defs =>
      let st := defs.foldl (addDefEntity rel) st
      match tsExtractImports pm content rel with
      | none => st
      | some imps =>
        imps.foldl (addImportEdge fs root (absPath root f) rel) st

/-- One `rglob` iteration of `build_index` (lines 60-68): files whose suffix
is outside the requested extension list are ignored; skip-policy hits are
counted as skipped; surviving files are indexed and counted. -/
def buildStep (pm : ParserModel) (fs : List FileRec) (root : List String)
    (exts : List String) (st : IndexState) (f : FileRec) : IndexState :=
  if pySuffix (lastSeg f.relSegs) ∈ exts then
    if shouldSkipParts (absPath root f) then
      { st with skippedCount := st.skippedCount + 1 }
    else
      let st := indexFile pm fs root st f
      { st with fileCount := st.fileCount + 1 }
  else st

/-- `build_index` starting from an explicit state (the traversal in
`rglob` order is the order of `fs`). -/
def buildFrom (pm : ParserModel) (fs : List FileRec) (root : List String)
    (exts : List String) (st : IndexState) (files : List FileRec) : IndexState :=
  files.foldl (buildStep pm fs root exts) st

/-- `build_index(extensions)` on a fresh index over the files `fs` under
`root`. -/
def buildIndex (pm : ParserModel) (fs : List FileRec) (root : List String)
    (exts : List String) : IndexState :=
  buildFrom pm fs root exts emptyState fs

/-- `build_index()` with the default extension list
(`list(EXTENSION_TO_LANGUAGE.keys())`). -/
def buildIndexDefault (pm : ParserModel) (fs : List FileRec)
    (root : List String) : IndexState :=
  buildIndex pm fs root extensionOrder

/-! ## Queries (`search_entities`, index.py lines 169-180) -/

/-- The keep test of `search_entities`' loop: the `continue` fires when
`entity_type` is truthy (non-`None` and non-empty) and differs from the
entity's type; surviving entities are kept when the lowercased query occurs
in the lowercased name or path. -/
def searchKeep (queryLower : String) (entityType : Option String)
    (e : CodeEntity) : Bool :=
  (match entityType with
   | some t => !(t ≠ "" && e.type ≠ t)
   | none => true)
  && (strContains (strLower e.name) queryLower || strContains (strLower e.path) queryLower)

/-- `search_entities(query, entity_type)` over the entities dict. -/
def searchEntities (entities : List (String × CodeEntity)) (query : String)
    (entityType : Option String) : List CodeEntity :=
  ((entities.filter (fun kv => searchKeep (strLower query) entityType kv.2)).map Prod.snd)

/-! ## Specification-side definitions

These follow the wording of the specification/claims and are compared with
the definitions translated from the source. -/

/-- Number of leading `../` runs of a relative import string (spec §4.3 step
2: "consume every leading `../` segment"). -/
def dotDotCount : List Char → Nat
  | '.' :: '.' :: '/' :: rest => dotDotCount rest + 1
  | _ => 0

/-- Spec §4.3 step 2, base directory: start from the importing file's
directory and move one directory up per leading `../` segment. -/
def relBaseSpec (fromFile : List String) (raw : String) : List String :=
  List.dropLast^[dotDotCount (stripQuotes raw).data] fromFile.dropLast

/-- Spec §4.3 step 2, remaining module string: drop the consumed `../`
segments, then strip any remaining leading `.`/`/` characters. -/
def relRestSpec (raw : String) : List Char :=
  lstripDotSlash ((stripQuotes raw).data.drop (3 * dotDotCount (stripQuotes raw).data))

/-- The full ordered candidate list examined by the relative branch of
`_resolve_import` (all extensions, three candidates each). -/
def relCandidatesAll (fromFile : List String) (raw : String) : List (List String) :=
  match consumeDots fromFile.dropLast (stripQuotes raw).data with
  | (base, rest) =>
    extensionOrder.flatMap (mkRelCands base (String.mk (lstripDotSlash rest)))

/-- The skip list exactly as claimed (C6): the code's `default_skip` minus
`.env`, `.DS_Store` and `Thumbs.db`. -/
def claimSkipNames : List String :=
  [".git", ".svn", ".hg",
   "node_modules", "bower_components",
   "venv", ".venv", "env", "__pycache__",
   "target", "build", "dist", "out",
   ".pytest_cache", ".tox", ".coverage",
   ".idea", ".vscode", ".settings",
   "vendor"]

/-- The claimed per-segment skip test. -/
def partHitClaim (p : String) : Bool :=
  (strStartsWith p "." && p ≠ ".") || p ∈ claimSkipNames

/-- The claimed skip predicate (C6, as stated). -/
def skipSpecClaim (s : String) : Bool :=
  (pyParts s).any partHitClaim
    || pySuffix ((pyParts s).getLastD "") ∈ skipExtensionNames

/-- The amended per-segment skip test: the claimed one plus the segment name
`Thumbs.db` (the only entry of the code's list that neither appears in the
claimed list nor starts with a dot; `.env` and `.DS_Store` are subsumed by
the dot rule). -/
def partHitAmended (p : String) : Bool :=
  partHitClaim p || p = "Thumbs.db"

/-- The amended skip predicate. -/
def skipSpecAmended (s : String) : Bool :=
  (pyParts s).any partHitAmended
    || pySuffix ((pyParts s).getLastD "") ∈ skipExtensionNames

/-- Keys of the entity mapping. -/
def entityKeys (st : IndexState) : List String :=
  st.entities.map Prod.fst

/-- The root-relative path strings of the files that exist under the root. -/
def fsRelPaths (fs : List FileRec) : List String :=
  fs.map (fun f => relStr f.relSegs)

/-- An edge endpoint pair is accounted for: the source is an indexed entity;
the destination is an indexed entity, an `external:`-namespaced node, or the
relative path of a file that exists under the root. -/
def edgeOk (fs : List FileRec) (st : IndexState) (e : String × String) : Prop :=
  e.1 ∈ entityKeys st
    ∧ (e.2 ∈ entityKeys st ∨ (∃ t, e.2 = "external:" ++ t) ∨ e.2 ∈ fsRelPaths fs)

/-- All edges of the state are accounted for. -/
def graphOk (fs : List FileRec) (st : IndexState) : Prop :=
  ∀ e ∈ st.edges, edgeOk fs st e

/-- The key-derivation invariant of C8 for one stored entry. -/
def entryOk (kv : String × CodeEntity) : Prop :=
  (kv.2.type = "file" ∧ kv.1 = kv.2.path)
    ∨ (kv.2.type ≠ "file" ∧ kv.1 = kv.2.path ++ "::" ++ kv.2.name)

/-- A parser model whose grammar layer never labels a definition as a
file-kind entity (true of both source strategies: the tree-sitter capture
names and the regex pattern table only produce class/struct/interface/function/
type/enum/method/constructor/trait/impl/var kinds). -/
def goodParser (pm : ParserModel) : Prop :=
  ∀ c p ds, pm.rawParse c p = some ds → ∀ d ∈ ds, d.type ≠ "file"

/-! ## Concrete fixtures used by counterexamples and witnesses -/

/-- A tree holding `a/d.py` and `a/b/c.py` (the claim C1 scenario). -/
def fsRelA : List FileRec :=
  [⟨["a", "d.py"], some "x"⟩, ⟨["a", "b", "c.py"], some "y"⟩]

/-- A tree holding `a/b/d.py` and `a/b/c.py`. -/
def fsRelB : List FileRec :=
  [⟨["a", "b", "d.py"], some "x"⟩, ⟨["a", "b", "c.py"], some "y"⟩]

/-- The spec §8 end-to-end tree: `main.py` importing `utils`, plus `utils.py`. -/
def fsMain : List FileRec :=
  [⟨["main.py"], some "import utils"⟩, ⟨["utils.py"], some "def helper(): pass"⟩]

/-- A parser model that extracts nothing. -/
def pmEmpty : ParserModel :=
  { supported := ["python"], rawParse := fun _ _ => some [],
    rawImports := fun _ _ => some [] }

/-- A parser model extracting the import `utils` from `main.py`'s content. -/
def pmMain : ParserModel :=
  { supported := ["python"], rawParse := fun _ _ => some [],
    rawImports := fun c _ => if c = "import utils" then some ["utils"] else some [] }

/-- A single file importing the (non-local) module `numpy`. -/
def fsExt : List FileRec := [⟨["app.py"], some "import numpy"⟩]

/-- A tree holding `x.py` directly under the root (the C2 scenario for a
raw import whose joined form starts with `/`). -/
def fsAbs : List FileRec := [⟨["x.py"], some "y"⟩]

/-- A parser model extracting the import `numpy` from `app.py`'s content. -/
def pmExt : ParserModel :=
  { supported := ["python"], rawParse := fun _ _ => some [],
    rawImports := fun c _ => if c = "import numpy" then some ["numpy"] else some [] }

/-- A parser model whose grammar layer raises on every parse. -/
def pmBadParse : ParserModel :=
  { supported := ["python"], rawParse := fun _ _ => none,
    rawImports := fun _ _ => some [] }

/-- A readable Python file (used with `pmBadParse`). -/
def fBad : FileRec := ⟨["bad.py"], some "class X:"⟩

/-- A tree where `a.py` imports `b` and `b.py` exists but cannot be read. -/
def fsBroken : List FileRec :=
  [⟨["a.py"], some "import b"⟩, ⟨["b.py"], none⟩]

/-- A parser model extracting the import `b` from `a.py`'s content. -/
def pmBroken : ParserModel :=
  { supported := ["python"], rawParse := fun _ _ => some [],
    rawImports := fun c _ => if c = "import b" then some ["b"] else some [] }

/-- A single file whose extension is not in the extension table. -/
def fsTxt : List FileRec := [⟨["readme.txt"], some "hello"⟩]

/-- A file-kind entity fixture. -/
def entFile : CodeEntity := ⟨"f.py", "file", "f.py", ""⟩

/-- A one-entry entities mapping. -/
def esOne : List (String × CodeEntity) := [("f.py", entFile)]

/-- A two-entry entities mapping with a file and a function entity. -/
def esTwo : List (String × CodeEntity) :=
  [("a.py", ⟨"a.py", "file", "a.py", ""⟩),
   ("a.py::g", ⟨"a.py", "function", "g", "def g(): pass"⟩)]

/-- A parser model producing one function definition for every parse. -/
def pmFoo : ParserModel :=
  { supported := ["python"], rawParse := fun _ _ => some [⟨"foo", "function", "def foo(): pass"⟩],
    rawImports := fun _ _ => some [] }

/-- A single Python file defining `foo`. -/
def fsFoo : List FileRec := [⟨["mod.py"], some "def foo(): pass"⟩]

/-! ## Helper lemmas -/

theorem insertA_keys_self (m : List (String × CodeEntity)) (k : String)
    (v : CodeEntity) : k ∈ (insertA m k v).map Prod.fst := by
  induction m with
  | nil => simp [insertA]
  | cons hd rest ih =>
    obtain ⟨k', v'⟩ := hd
    simp only [insertA]
    split
    · simp
    · simpa using Or.inr ih

theorem insertA_keys_mono {m : List (String × CodeEntity)} {a : String}
    (k : String) (v : CodeEntity) (h : a ∈ m.map Prod.fst) :
    a ∈ (insertA m k v).map Prod.fst := by
  induction m with
  | nil => simp at h
  | cons hd rest ih =>
    obtain ⟨k', v'⟩ := hd
    simp only [insertA]
    split
    · rename_i hk
      simp only [List.map_cons, List.mem_cons] at h ⊢
      rcases h with h | h
      · exact Or.inl (hk ▸ h)
      · exact Or.inr h
    · simp only [List.map_cons, List.mem_cons] at h ⊢
      rcases h with h | h
      · exact Or.inl h
      · exact Or.inr (ih h)

theorem lookup_insertA_self (m : List (String × CodeEntity)) (k : String)
    (v : CodeEntity) : List.lookup k (insertA m k v) = some v := by
  induction m with
  | nil => simp [insertA, List.lookup]
  | cons hd rest ih =>
    obtain ⟨k', v'⟩ := hd
    simp only [insertA]
    split
    · simp [List.lookup]
    · rename_i hk
      have : (k == k') = false := by
        simp only [beq_eq_false_iff_ne, ne_eq]
        exact fun h => hk h.symm
      simp [List.lookup, this, ih]

theorem forall_insertA {P : String × CodeEntity → Prop}
    {m : List (String × CodeEntity)} {k : String} {v : CodeEntity}
    (hm : ∀ kv ∈ m, P kv) (hkv : P (k, v)) :
    ∀ kv ∈ insertA m k v, P kv := by
  induction m with
  | nil => simpa [insertA] using hkv
  | cons hd rest ih =>
    obtain ⟨k', v'⟩ := hd
    simp only [insertA]
    split
    · intro kv hkv'
      rcases List.mem_cons.1 hkv' with rfl | h
      · exact hkv
      · exact hm kv (List.mem_cons_of_mem _ h)
    · intro kv hkv'
      rcases List.mem_cons.1 hkv' with rfl | h
      · exact hm _ (List.mem_cons_self _ _)
      · exact ih (fun kv h' => hm kv (List.mem_cons_of_mem _ h')) kv h

theorem addEdge_entities (st : IndexState) (u v : String) :
    (addEdge st u v).entities = st.entities := rfl

theorem mem_addEdge_self (st : IndexState) (u v : String) :
    (u, v) ∈ (addEdge st u v).edges := by
  simp only [addEdge]
  split
  · assumption
  · simp

theorem mem_addEdge_of_mem {st : IndexState} {e : String × String}
    (u v : String) (h : e ∈ st.edges) : e ∈ (addEdge st u v).edges := by
  simp only [addEdge]
  split
  · exact h
  · exact List.mem_append_left _ h

theorem mem_addEdge_elim {st : IndexState} {e : String × String}
    {u v : String} (h : e ∈ (addEdge st u v).edges) :
    e ∈ st.edges ∨ e = (u, v) := by
  simp only [addEdge] at h
  split at h
  · exact Or.inl h
  · rcases List.mem_append.1 h with h | h
    · exact Or.inl h
    · simpa using Or.inr (List.mem_singleton.1 h)

theorem firstExisting_eq_find (fs : List FileRec) (root : List String)
    (mk : String → List (List String)) (exts : List String) :
    firstExisting fs root mk exts
      = (exts.flatMap mk).find? (fun c => pathExists fs root c) := by
  induction exts with
  | nil => simp [firstExisting]
  | cons e rest ih =>
    rw [List.flatMap_cons, List.find?_append, ← ih]
    simp only [firstExisting]
    cases (mk e).find? (fun c => pathExists fs root c) <;> simp [Option.or]

theorem firstExisting_some {fs : List FileRec} {root : List String}
    {mk : String → List (List String)} {exts : List String} {c : List String}
    (h : firstExisting fs root mk exts = some c) : pathExists fs root c = true := by
  rw [firstExisting_eq_find] at h
  exact List.find?_some h

theorem consumeDots_eq (base : List String) (cs : List Char) :
    consumeDots base cs
      = (List.dropLast^[dotDotCount cs] base, cs.drop (3 * dotDotCount cs)) := by
  induction base, cs using consumeDots.induct with
  | case1 base rest ih =>
    have hcount : dotDotCount ('.' :: '.' :: '/' :: rest) = dotDotCount rest + 1 := rfl
    have hstep : consumeDots base ('.' :: '.' :: '/' :: rest)
        = consumeDots base.dropLast rest := rfl
    rw [hstep, ih, hcount]
    refine Prod.ext ?_ ?_
    · simp [Function.iterate_succ_apply]
    · have h3 : 3 * (dotDotCount rest + 1) = 3 + 3 * dotDotCount rest := by ring
      simp only [h3]
      rw [← List.drop_drop]
      rfl
  | case2 base cs h =>
    have hcount : dotDotCount cs = 0 := by
      unfold dotDotCount
      split
      · exfalso; exact h _ rfl
      · rfl
    have hstep : consumeDots base cs = (base, cs) := by
      unfold consumeDots
      split
      · exfalso; exact h _ rfl
      · rfl
    rw [hstep, hcount]
    simp

theorem resolveImport_some_mem {fs : List FileRec} {root : List String}
    {fromFile : List String} {raw r : String}
    (h : resolveImport fs root fromFile raw = some r) : r ∈ fsRelPaths fs := by
  simp only [resolveImport] at h
  have key : ∀ found : Option (List String),
      found = none ∨ (∃ c, found = some c ∧ pathExists fs root c = true) →
      found.map (fun c => relStr (c.drop root.length)) = some r →
      r ∈ fsRelPaths fs := by
    intro found hf hmap
    rcases hf with hf | ⟨c, rfl, hex⟩
    · simp [hf] at hmap
    · have hr : relStr (c.drop root.length) = r := by simpa using hmap
      simp only [pathExists, List.any_eq_true, decide_eq_true_eq] at hex
      obtain ⟨f, hfmem, hfc⟩ := hex
      have hdrop : c.drop root.length = f.relSegs := by
        rw [← hfc]
        simp only [absPath]
        exact List.drop_left root f.relSegs
      rw [← hr, hdrop]
      simp only [fsRelPaths, List.mem_map]
      exact ⟨f, hfmem, rfl⟩
  refine key _ ?_ h
  split
  · rename_i tl heq
    generalize consumeDots (fromFile.dropLast) (stripQuotes raw).data = pr
    obtain ⟨base, rest⟩ := pr
    cases hfe : firstExisting fs root
        (mkRelCands base (String.mk (lstripDotSlash rest))) extensionOrder with
    | none => exact Or.inl rfl
    | some c => exact Or.inr ⟨c, rfl, firstExisting_some hfe⟩
  · cases hfe : firstExisting fs root
        (mkAbsCands root (stripQuotes raw)) extensionOrder with
    | none => exact Or.inl rfl
    | some c => exact Or.inr ⟨c, rfl, firstExisting_some hfe⟩

theorem addDefEntity_entities (rel : String) (st : IndexState)
    (kv : String × CodeEntity) :
    (addDefEntity rel st kv).entities = insertA st.entities kv.1 kv.2 := rfl

theorem addDefEntity_keys_mono {st : IndexState} {a : String}
    (rel : String) (kv : String × CodeEntity) (h : a ∈ entityKeys st) :
    a ∈ entityKeys (addDefEntity rel st kv) := by
  simp only [entityKeys, addDefEntity_entities]
  exact insertA_keys_mono _ _ h

theorem addDefEntity_edges_elim {st : IndexState} {e : String × String}
    {rel : String} {kv : String × CodeEntity}
    (h : e ∈ (addDefEntity rel st kv).edges) :
    e ∈ st.edges ∨ e = (kv.1, rel) := by
  simp only [addDefEntity] at h
  exact mem_addEdge_elim h

theorem foldlDef_keys_mono {defs : List (String × CodeEntity)}
    {st : IndexState} {a : String} (rel : String) (h : a ∈ entityKeys st) :
    a ∈ entityKeys (defs.foldl (addDefEntity rel) st) := by
  induction defs generalizing st with
  | nil => exact h
  | cons d rest ih => exact ih (addDefEntity_keys_mono rel d h)

theorem foldlImp_entities (fs : List FileRec) (root ff : List String)
    (rel : String) (imps : List String) (st : IndexState) :
    (imps.foldl (addImportEdge fs root ff rel) st).entities = st.entities := by
  induction imps generalizing st with
  | nil => rfl
  | cons imp rest ih =>
    rw [List.foldl_cons, ih]
    simp only [addImportEdge]
    split <;> rfl

theorem mem_addImportEdge_of_mem {st : IndexState} {e : String × String}
    (fs : List FileRec) (root ff : List String) (rel imp : String)
    (h : e ∈ st.edges) : e ∈ (addImportEdge fs root ff rel st imp).edges := by
  simp only [addImportEdge]
  split <;> exact mem_addEdge_of_mem _ _ h

theorem foldlImp_edges_mono {imps : List String} {st : IndexState}
    {e : String × String} (fs : List FileRec) (root ff : List String)
    (rel : String) (h : e ∈ st.edges) :
    e ∈ (imps.foldl (addImportEdge fs root ff rel) st).edges := by
  induction imps generalizing st with
  | nil => exact h
  | cons imp rest ih => exact ih (mem_addImportEdge_of_mem fs root ff rel imp h)

theorem foldlImp_mem_external {imps : List String} {imp : String}
    (fs : List FileRec) (root ff : List String) (rel : String)
    (st : IndexState) (hmem : imp ∈ imps)
    (hres : resolveImport fs root ff imp = none) :
    (rel, "external:" ++ imp) ∈ (imps.foldl (addImportEdge fs root ff rel) st).edges := by
  induction imps generalizing st with
  | nil => cases hmem
  | cons a rest ih =>
    rcases List.mem_cons.1 hmem with rfl | h
    · rw [List.foldl_cons]
      apply foldlImp_edges_mono fs root ff rel
      unfold addImportEdge
      rw [hres]
      exact mem_addEdge_self _ _ _
    · exact ih _ h

/-! ## Claim C1 -/

/-- Claim C1, as stated, is false on the code: in a tree holding `a/d.py`,
resolving the raw import `..d` from `a/b/c.py` never considers `a/d.py`
(the candidate list does not contain it) and reports the import unresolved,
because `..d` has no leading `../` prefix, so no directory ascent happens
(`lstrip('./')` then reduces `..d` to `d` under `a/b`). -/
theorem c1_counterexample :
    (⟨["a", "d.py"], some "x"⟩ : FileRec) ∈ fsRelA
      ∧ resolveImport fsRelA ["r"] ["r", "a", "b", "c.py"] "..d" = none
      ∧ ["r", "a", "d.py"] ∉ relCandidatesAll ["r", "a", "b", "c.py"] "..d" := by
  decide

/-- Claim C1 (amended): for every relative raw import (first character `.`
after stripping quotes) the resolver starts from the importing file's
directory, moves one directory up for each leading `../` segment, strips any
remaining leading `.`/`/` characters, and searches the per-extension candidate
triples from the adjusted directory, in table order; in particular `..d` from
`a/b/c.py` performs no ascent (it has no `../` prefix): the candidate
`a/b/d.py` is considered — not `a/d.py` — and resolves when it exists. -/
theorem c1_relative_resolution :
    (∀ (fs : List FileRec) (root fromFile : List String) (raw : String),
        (stripQuotes raw).data.head? = some '.' →
        resolveImport fs root fromFile raw =
          ((extensionOrder.flatMap
              (mkRelCands (relBaseSpec fromFile raw) (String.mk (relRestSpec raw)))).find?
            (fun c => pathExists fs root c)).map
            (fun c => relStr (c.drop root.length)))
      ∧ ["r", "a", "b", "d.py"] ∈ relCandidatesAll ["r", "a", "b", "c.py"] "..d"
      ∧ resolveImport fsRelB ["r"] ["r", "a", "b", "c.py"] "..d" = some "a/b/d.py" := by
  refine ⟨?_, by decide, by decide⟩
  intro fs root fromFile raw h
  simp only [resolveImport]
  split
  · rw [consumeDots_eq, firstExisting_eq_find]
    rfl
  · rename_i hno
    exfalso
    cases hd : (stripQuotes raw).data with
    | nil => rw [hd] at h; cases h
    | cons c tl =>
      rw [hd] at h
      simp only [List.head?_cons, Option.some.injEq] at h
      subst h
      exact hno tl hd

/-- Witness for `c1_relative_resolution` at the concrete input `..d` from
`a/b/c.py` over the tree `fsRelB`. -/
theorem c1_witness :
    ((stripQuotes "..d").data.head? = some '.')
      ∧ resolveImport fsRelB ["r"] ["r", "a", "b", "c.py"] "..d" =
          ((extensionOrder.flatMap
              (mkRelCands (relBaseSpec ["r", "a", "b", "c.py"] "..d")
                (String.mk (relRestSpec "..d")))).find?
            (fun c => pathExists fsRelB ["r"] c)).map
            (fun c => relStr (c.drop (["r"] : List String).length)) :=
  ⟨by decide,
   c1_relative_resolution.1 fsRelB ["r"] ["r", "a", "b", "c.py"] "..d" (by decide)⟩

/-! ## Claim C2 -/

/-- Claim C2, as stated, is false on the code: for the raw import `/x`
(reachable from a JS `/x` module specifier; a Rust `::x` use-path joins to
the same `/x`), the claimed under-root candidate `r/x.py` exists in `fsAbs`
and the claimed under-root candidate search would resolve it to `x.py`, but
the program joins `root_path / "/x.py"`, which by pathlib semantics discards
the root and checks the absolute path `/x.py` instead — the import stays
unresolved. -/
theorem c2_counterexample :
    resolveImport fsAbs ["r"] ["r", "a.py"] "/x" = none
      ∧ ((extensionOrder.flatMap (fun ext =>
            [["r"] ++ segsOf (absJoined (stripQuotes "/x") ++ ext),
             ["r"] ++ segsOf (absJoined (stripQuotes "/x")) ++ ["index" ++ ext],
             ["r"] ++ segsOf (absJoined (stripQuotes "/x")) ++ ["__init__" ++ ext]])).find?
          (fun c => pathExists fsAbs ["r"] c)).map
          (fun c => relStr (c.drop (["r"] : List String).length)) = some "x.py" := by
  refine ⟨by decide, by decide⟩

/-- Claim C2 (amended): a non-relative raw import is split on `.`, `::` and
`/` into segments (`absJoined` is `'/'.join` of those segments), and for each
known source-file extension in fixed table order the three candidates
`joined+ext`, `joined/index+ext`, `joined/__init__+ext` are checked as
pathlib joins onto the root — which stay under the root except when the
joined string begins with `/`, in which case the root is discarded and the
absolute path itself is checked — the first existing one winning; when none
exists the resolver returns `none` and `_index_file` records an edge from
the importing file to the `external:`-namespaced node for the raw import. -/
theorem c2_root_resolution :
    (∀ (fs : List FileRec) (root fromFile : List String) (raw : String),
        (stripQuotes raw).data.head? ≠ some '.' →
        resolveImport fs root fromFile raw =
          ((extensionOrder.flatMap (fun ext =>
              [pyJoin root (absJoined (stripQuotes raw) ++ ext),
               pyJoin root (absJoined (stripQuotes raw)) ++ ["index" ++ ext],
               pyJoin root (absJoined (stripQuotes raw)) ++ ["__init__" ++ ext]])).find?
            (fun c => pathExists fs root c)).map
            (fun c => relStr (c.drop root.length)))
      ∧ (∀ (pm : ParserModel) (fs : List FileRec) (root : List String)
            (st : IndexState) (f : FileRec) (content : String)
            (defs : List (String × CodeEntity)) (imps : List String) (imp : String),
          f.content = some content →
          tsParseFile pm content (relStr f.relSegs) = some defs →
          tsExtractImports pm content (relStr f.relSegs) = some imps →
          imp ∈ imps →
          resolveImport fs root (absPath root f) imp = none →
          (relStr f.relSegs, "external:" ++ imp) ∈ (indexFile pm fs root st f).edges) := by
  constructor
  · intro fs root fromFile raw h
    simp only [resolveImport]
    split
    · rename_i tl heq
      exfalso
      exact h (by rw [heq]; rfl)
    · rw [firstExisting_eq_find]
      rfl
  · intro pm fs root st f content defs imps imp hc hparse himps hmem hres
    obtain ⟨segs, oc⟩ := f
    simp only at hc
    subst hc
    simp only [indexFile, hparse, himps] at *
    exact foldlImp_mem_external fs root (absPath root ⟨segs, some content⟩)
      (relStr segs) _ hmem hres

/-- Witness for `c2_root_resolution`: the raw string `utils` from `main.py`
resolves by the claimed candidate search over `fsMain`, and the unresolved
`numpy` of `app.py` produces the edge to `external:numpy`. -/
theorem c2_witness :
    ((stripQuotes "utils").data.head? ≠ some '.')
      ∧ resolveImport fsMain ["r"] ["r", "main.py"] "utils" =
          ((extensionOrder.flatMap (fun ext =>
              [pyJoin ["r"] (absJoined (stripQuotes "utils") ++ ext),
               pyJoin ["r"] (absJoined (stripQuotes "utils")) ++ ["index" ++ ext],
               pyJoin ["r"] (absJoined (stripQuotes "utils")) ++ ["__init__" ++ ext]])).find?
            (fun c => pathExists fsMain ["r"] c)).map
            (fun c => relStr (c.drop (["r"] : List String).length))
      ∧ (relStr (["app.py"] : List String), "external:" ++ "numpy")
          ∈ (indexFile pmExt fsExt ["r"] emptyState ⟨["app.py"], some "import numpy"⟩).edges :=
  ⟨by decide,
   c2_root_resolution.1 fsMain ["r"] ["r", "main.py"] "utils" (by decide),
   c2_root_resolution.2 pmExt fsExt ["r"] emptyState ⟨["app.py"], some "import numpy"⟩
     "import numpy" [] ["numpy"] "numpy" rfl (by decide) (by decide) (by decide) (by decide)⟩

/-! ## Claim C3 -/

set_option maxRecDepth 2000 in
/-- Claim C3, as stated, is false on the code: when the parser raises (here
`pmBadParse` raises on every parse), the file's file-kind entity has already
been stored before the parse ran, so it persists in the entity mapping after
the caught error. -/
theorem c3_counterexample :
    tsParseFile pmBadParse "class X:" "bad.py" = none
      ∧ List.lookup "bad.py"
          (indexFile pmBadParse [fBad] ["r"] emptyState fBad).entities
        = some (fileEntity "bad.py" "bad.py" "class X:") :=
  ⟨by decide, by rfl⟩

/-- Claim C3 (amended): a caught read error leaves the state completely
unchanged (no entity persists and the run continues), while a caught parse
error leaves exactly the already-inserted file-kind entity (and its graph
node) — no definition entity and no edge — and the traversal continues with
the remaining files (`buildFrom` over a concatenation processes the tail from
wherever the head left the state). -/
theorem c3_error_isolation :
    (∀ (pm : ParserModel) (fs : List FileRec) (root : List String)
        (st : IndexState) (f : FileRec),
        f.content = none → indexFile pm fs root st f = st)
      ∧ (∀ (pm : ParserModel) (fs : List FileRec) (root : List String)
            (st : IndexState) (f : FileRec) (content : String),
          f.content = some content →
          tsParseFile pm content (relStr f.relSegs) = none →
          indexFile pm fs root st f =
            { st with
              entities := insertA st.entities (relStr f.relSegs)
                (fileEntity (relStr f.relSegs) (lastSeg f.relSegs) content),
              nodes := addNode st.nodes (relStr f.relSegs) })
      ∧ (∀ (pm : ParserModel) (fs : List FileRec) (root : List String)
            (exts : List String) (st : IndexState) (xs ys : List FileRec),
          buildFrom pm fs root exts st (xs ++ ys)
            = buildFrom pm fs root exts (buildFrom pm fs root exts st xs) ys) := by
  refine ⟨?_, ?_, ?_⟩
  · intro pm fs root st f h
    obtain ⟨segs, oc⟩ := f
    simp only at h
    subst h
    rfl
  · intro pm fs root st f content hc hparse
    obtain ⟨segs, oc⟩ := f
    simp only at hc
    subst hc
    simp only [indexFile, hparse]
  · intro pm fs root exts st xs ys
    exact List.foldl_append _ _ xs ys

/-- Witness for `c3_error_isolation`: an unreadable file leaves the fresh
state untouched. -/
theorem c3_witness :
    ((⟨["b.py"], none⟩ : FileRec).content = none)
      ∧ indexFile pmEmpty [] [] emptyState ⟨["b.py"], none⟩ = emptyState :=
  ⟨rfl, c3_error_isolation.1 pmEmpty [] [] emptyState _ rfl⟩

/-! ## Claim C4 supporting lemmas -/

theorem edgeOk_mono {fs : List FileRec} {st st' : IndexState}
    {e : String × String}
    (hk : ∀ a, a ∈ entityKeys st → a ∈ entityKeys st')
    (h : edgeOk fs st e) : edgeOk fs st' e := by
  obtain ⟨h1, h2⟩ := h
  refine ⟨hk _ h1, ?_⟩
  rcases h2 with h2 | h2 | h2
  · exact Or.inl (hk _ h2)
  · exact Or.inr (Or.inl h2)
  · exact Or.inr (Or.inr h2)

theorem graphOk_addDefEntity {fs : List FileRec} {st : IndexState}
    {rel : String} (kv : String × CodeEntity)
    (hrel : rel ∈ entityKeys st) (hg : graphOk fs st) :
    graphOk fs (addDefEntity rel st kv) := by
  intro e he
  have hkeys : ∀ a, a ∈ entityKeys st → a ∈ entityKeys (addDefEntity rel st kv) :=
    fun a ha => addDefEntity_keys_mono rel kv ha
  rcases addDefEntity_edges_elim he with h | rfl
  · exact edgeOk_mono hkeys (hg e h)
  · refine ⟨?_, Or.inl (hkeys _ hrel)⟩
    simp only [entityKeys, addDefEntity_entities]
    exact insertA_keys_self _ _ _

theorem graphOk_foldlDef {fs : List FileRec} {rel : String} :
    ∀ (defs : List (String × CodeEntity)) (st : IndexState),
      rel ∈ entityKeys st → graphOk fs st →
      graphOk fs (defs.foldl (addDefEntity rel) st) := by
  intro defs
  induction defs with
  | nil => intro st _ hg; exact hg
  | cons d rest ih =>
    intro st hrel hg
    rw [List.foldl_cons]
    exact ih _ (addDefEntity_keys_mono rel d hrel) (graphOk_addDefEntity d hrel hg)

theorem graphOk_addImportEdge {fs : List FileRec} {root ff : List String}
    {rel : String} {st : IndexState} (imp : String)
    (hrel : rel ∈ entityKeys st) (hg : graphOk fs st) :
    graphOk fs (addImportEdge fs root ff rel st imp) := by
  intro e he
  have hent : (addImportEdge fs root ff rel st imp).entities = st.entities := by
    simp only [addImportEdge]
    split <;> rfl
  have hkeys : ∀ a, a ∈ entityKeys (addImportEdge fs root ff rel st imp)
      ↔ a ∈ entityKeys st := by
    intro a; rw [entityKeys, hent]; exact Iff.rfl
  simp only [addImportEdge] at he
  split at he
  · rename_i r hr
    rcases mem_addEdge_elim he with h | rfl
    · exact edgeOk_mono (fun a ha => (hkeys a).2 ((hkeys a).1 ((hkeys a).2 ha))) (hg e h)
    · exact ⟨(hkeys _).2 hrel, Or.inr (Or.inr (resolveImport_some_mem hr))⟩
  · rcases mem_addEdge_elim he with h | rfl
    · exact edgeOk_mono (fun a ha => (hkeys a).2 ha) (hg e h)
    · exact ⟨(hkeys _).2 hrel, Or.inr (Or.inl ⟨imp, rfl⟩)⟩

theorem graphOk_foldlImp {fs : List FileRec} {root ff : List String}
    {rel : String} :
    ∀ (imps : List String) (st : IndexState),
      rel ∈ entityKeys st → graphOk fs st →
      graphOk fs (imps.foldl (addImportEdge fs root ff rel) st) := by
  intro imps
  induction imps with
  | nil => intro st _ hg; exact hg
  | cons imp rest ih =>
    intro st hrel hg
    rw [List.foldl_cons]
    refine ih _ ?_ (graphOk_addImportEdge imp hrel hg)
    have hent : (addImportEdge fs root ff rel st imp).entities = st.entities := by
      simp only [addImportEdge]
      split <;> rfl
    rw [entityKeys, hent]
    exact hrel

theorem graphOk_indexFile (pm : ParserModel) (fs : List FileRec)
    (root : List String) (st : IndexState) (f : FileRec)
    (hg : graphOk fs st) : graphOk fs (indexFile pm fs root st f) := by
  obtain ⟨segs, oc⟩ := f
  cases oc with
  | none => exact hg
  | some content =>
    simp only [indexFile]
    set rel := relStr segs with hrel
    have hg1 : graphOk fs
        { st with
          entities := insertA st.entities rel (fileEntity rel (lastSeg segs) content),
          nodes := addNode st.nodes rel } := by
      intro e he
      exact edgeOk_mono (fun a ha => insertA_keys_mono _ _ ha) (hg e he)
    have hrel1 : rel ∈ entityKeys
        { st with
          entities := insertA st.entities rel (fileEntity rel (lastSeg segs) content),
          nodes := addNode st.nodes rel } := insertA_keys_self _ _ _
    cases hparse : tsParseFile pm content rel with
    | none => exact hg1
    | some defs =>
      cases himps : tsExtractImports pm content rel with
      | none => exact graphOk_foldlDef defs _ hrel1 hg1
      | some imps =>
        refine graphOk_foldlImp imps _ ?_ (graphOk_foldlDef defs _ hrel1 hg1)
        exact foldlDef_keys_mono rel hrel1

theorem graphOk_buildFrom (pm : ParserModel) (fs : List FileRec)
    (root : List String) (exts : List String) :
    ∀ (files : List FileRec) (st : IndexState),
      graphOk fs st → graphOk fs (buildFrom pm fs root exts st files) := by
  intro files
  induction files with
  | nil => intro st hg; exact hg
  | cons f rest ih =>
    intro st hg
    refine ih _ ?_
    simp only [buildStep]
    split
    · split
      · exact hg
      · intro e he
        have := graphOk_indexFile pm fs root st f hg e he
        exact this
    · exact hg

/-! ## Claim C4 -/

set_option maxRecDepth 2000 in
/-- Claim C4, as stated, is false on the code: in `fsBroken`, `a.py` imports
`b`, which resolves to the on-disk file `b.py`; `b.py` itself fails to read,
so no entity is ever stored for it.  After the build the edge
`a.py → b.py` has a destination that is neither a key of the entity mapping
nor an `external:`-namespaced node. -/
theorem c4_counterexample :
    ("a.py", "b.py") ∈ (buildIndexDefault pmBroken fsBroken ["r"]).edges
      ∧ List.lookup "b.py" (buildIndexDefault pmBroken fsBroken ["r"]).entities = none
      ∧ ∀ t, "b.py" ≠ "external:" ++ t := by
  refine ⟨by decide, by rfl, ?_⟩
  intro t h
  have hlen := congrArg String.length h
  rw [String.length_append] at hlen
  have h1 : ("b.py" : String).length = 4 := by decide
  have h2 : ("external:" : String).length = 9 := by decide
  rw [h1, h2] at hlen
  omega

/-- Claim C4 (amended): after `build`, every edge source is a key of the
entity mapping, and every edge destination is a key of the entity mapping,
an `external:`-namespaced node, or the root-relative path of a file that
exists under the root but was not (successfully) indexed — a resolved import
may target an existing file that is skipped, extension-filtered, or failed
to read. -/
theorem c4_graph_integrity (pm : ParserModel) (fs : List FileRec)
    (root : List String) (exts : List String) :
    ∀ e ∈ (buildIndex pm fs root exts).edges,
      e.1 ∈ entityKeys (buildIndex pm fs root exts)
        ∧ (e.2 ∈ entityKeys (buildIndex pm fs root exts)
            ∨ (∃ t, e.2 = "external:" ++ t)
            ∨ e.2 ∈ fsRelPaths fs) := by
  intro e he
  exact graphOk_buildFrom pm fs root exts fs emptyState (fun e h => by cases h) e he

set_option maxRecDepth 2000 in
/-- Witness for `c4_graph_integrity` on the concrete build of `fsMain`, at its
edge `main.py → utils.py`. -/
theorem c4_witness :
    ("main.py", "utils.py") ∈ (buildIndexDefault pmMain fsMain ["r"]).edges
      ∧ (("main.py", "utils.py").1 ∈ entityKeys (buildIndexDefault pmMain fsMain ["r"])
          ∧ (("main.py", "utils.py").2 ∈ entityKeys (buildIndexDefault pmMain fsMain ["r"])
              ∨ (∃ t, ("main.py", "utils.py").2 = "external:" ++ t)
              ∨ ("main.py", "utils.py").2 ∈ fsRelPaths fsMain)) :=
  ⟨by decide,
   c4_graph_integrity pmMain fsMain ["r"] extensionOrder ("main.py", "utils.py") (by decide)⟩

/-! ## Claim C5 -/

/-- Claim C5, as stated, is false on the code: `readme.txt` has an extension
outside the extension table (`extLang` returns `none`), and with the default
extension list `build_index` never reaches the file at all — after the build
the entity mapping is empty, so no file-kind entity for it exists. -/
theorem c5_counterexample :
    extLang (pySuffix (lastSeg (["readme.txt"] : List String))) = none
      ∧ (buildIndexDefault pmEmpty fsTxt ["r"]).entities = []
      ∧ List.lookup "readme.txt" (buildIndexDefault pmEmpty fsTxt ["r"]).entities = none := by
  refine ⟨by decide, by rfl, by rfl⟩

/-- Claim C5 (amended): a file whose language is unsupported is not an error,
but it is present in the entity mapping only when its extension is in the
build's extension list (by default that list is exactly the table's keys, so
an off-table extension is not traversed at all: `buildStep` ignores it).
When such a file is indexed, its indexing step adds exactly the file-kind
entity and its graph node — no parse output, no definition entities, no
edges. -/
theorem c5_unsupported_language :
    (∀ (pm : ParserModel) (fs : List FileRec) (root : List String)
        (st : IndexState) (f : FileRec) (content : String),
        f.content = some content →
        extLang (pySuffix (lastSeg (segsOf (relStr f.relSegs)))) = none →
        indexFile pm fs root st f =
          { st with
            entities := insertA st.entities (relStr f.relSegs)
              (fileEntity (relStr f.relSegs) (lastSeg f.relSegs) content),
            nodes := addNode st.nodes (relStr f.relSegs) })
      ∧ (∀ (pm : ParserModel) (fs : List FileRec) (root : List String)
            (exts : List String) (st : IndexState) (f : FileRec),
          pySuffix (lastSeg f.relSegs) ∉ exts →
          buildStep pm fs root exts st f = st) := by
  constructor
  · intro pm fs root st f content hc hlang
    obtain ⟨segs, oc⟩ := f
    simp only at hc
    subst hc
    simp only [indexFile, tsParseFile, tsExtractImports, hlang]
    rfl
  · intro pm fs root exts st f h
    simp only [buildStep, if_neg h]

/-- Witness for `c5_unsupported_language`: indexing `notes.txt` (extension
outside the table) adds only the file entity; and `buildStep` with the
default extension list ignores it. -/
theorem c5_witness :
    ((⟨["notes.txt"], some "x"⟩ : FileRec).content = some "x")
      ∧ extLang (pySuffix (lastSeg (segsOf (relStr (["notes.txt"] : List String))))) = none
      ∧ indexFile pmEmpty [] ["r"] emptyState ⟨["notes.txt"], some "x"⟩ =
          { emptyState with
            entities := insertA emptyState.entities (relStr (["notes.txt"] : List String))
              (fileEntity (relStr (["notes.txt"] : List String))
                (lastSeg (["notes.txt"] : List String)) "x"),
            nodes := addNode emptyState.nodes (relStr (["notes.txt"] : List String)) } :=
  ⟨rfl, by decide,
   c5_unsupported_language.1 pmEmpty [] ["r"] emptyState ⟨["notes.txt"], some "x"⟩ "x"
     rfl (by decide)⟩

/-! ## Claim C6 supporting lemmas -/

theorem partHit_eq_amended (p : String) : partHit p = partHitAmended p := by
  simp only [partHit, partHitAmended, partHitClaim]
  cases hdot : (strStartsWith p "." && decide (p ≠ ".")) with
  | true => simp
  | false =>
    simp only [Bool.false_or]
    rw [Bool.eq_iff_iff]
    simp only [Bool.or_eq_true, decide_eq_true_eq]
    constructor
    · intro hmem
      have H : ∀ q ∈ defaultSkipNames,
          (strStartsWith q "." && decide (q ≠ ".")) = true
            ∨ q ∈ claimSkipNames ∨ q = "Thumbs.db" := by decide
      rcases H p hmem with h | h | h
      · rw [h] at hdot; cases hdot
      · exact Or.inl h
      · exact Or.inr h
    · intro hmem
      rcases hmem with h | h
      · have H2 : ∀ q ∈ claimSkipNames, q ∈ defaultSkipNames := by decide
        exact H2 p h
      · subst h; decide

theorem any_partHit_eq (l : List String) :
    l.any partHit = l.any partHitAmended := by
  induction l with
  | nil => rfl
  | cons p rest ih => simp [List.any_cons, partHit_eq_amended, ih]

/-! ## Claim C6 -/

/-- Claim C6, as stated, is false on the code: the code's skip list also
contains `Thumbs.db`, which neither starts with a dot nor appears in the
claimed list nor has a skipped extension, so `should_skip_path` returns true
on `docs/Thumbs.db` while the claimed predicate returns false. -/
theorem c6_counterexample :
    shouldSkipPath "docs/Thumbs.db" = true
      ∧ skipSpecClaim "docs/Thumbs.db" = false := by
  decide

/-- Claim C6 (amended): the skip predicate returns true exactly when a path
segment starts with `.` (other than the literal `.`), or equals one of the
claimed fixed names or `Thumbs.db` (the code's list also holds `.env` and
`.DS_Store`, but those are subsumed by the dot rule), or the path's extension
is one of the skipped binary extensions; the four claimed example
evaluations hold. -/
theorem c6_skip_policy :
    (∀ s, shouldSkipPath s = skipSpecAmended s)
      ∧ shouldSkipPath ".git/config" = true
      ∧ shouldSkipPath "project/.venv/lib" = true
      ∧ shouldSkipPath "node_modules/pkg/index.js" = true
      ∧ shouldSkipPath "src/main.py" = false := by
  refine ⟨?_, by decide, by decide, by decide, by decide⟩
  intro s
  simp only [shouldSkipPath, shouldSkipParts, skipSpecAmended]
  rw [any_partHit_eq]

/-! ## Claim C7 -/

/-- Claim C7, as stated, is false on the code: with the kind filter given as
the empty string, `search_entities` applies no filter at all (Python
truthiness: `if entity_type and ...`), so a file-kind entity appears in the
result although it does not pass the given kind filter `""`. -/
theorem c7_counterexample :
    entFile ∈ searchEntities esOne "" (some "") ∧ entFile.type ≠ "" := by
  refine ⟨by decide, by decide⟩

/-- Claim C7 (amended): an entity is in the search result iff it occurs in
the entity mapping, passes the kind filter whenever the filter is given and
non-empty (an empty-string filter is treated as absent), and the lowercased
query occurs in its lowercased name or lowercased path; beyond that the
result only follows map iteration order. -/
theorem c7_search_semantics :
    ∀ (es : List (String × CodeEntity)) (q : String) (ot : Option String)
      (e : CodeEntity),
      e ∈ searchEntities es q ot ↔
        (∃ k, (k, e) ∈ es)
          ∧ (∀ t, ot = some t → t ≠ "" → e.type = t)
          ∧ (strContains (strLower e.name) (strLower q)
              || strContains (strLower e.path) (strLower q)) = true := by
  intro es q ot e
  simp only [searchEntities, List.mem_map, List.mem_filter]
  constructor
  · rintro ⟨⟨k, v⟩, ⟨hmem, hkeep⟩, rfl⟩
    simp only [searchKeep, Bool.and_eq_true] at hkeep
    obtain ⟨hfilt, hsub⟩ := hkeep
    refine ⟨⟨k, hmem⟩, ?_, hsub⟩
    intro t hot hne
    subst hot
    by_contra hvt
    simp [hne, hvt] at hfilt
  · rintro ⟨⟨k, hk⟩, hfilt, hsub⟩
    refine ⟨(k, e), ⟨hk, ?_⟩, rfl⟩
    simp only [searchKeep, Bool.and_eq_true]
    refine ⟨?_, hsub⟩
    cases ot with
    | none => rfl
    | some t =>
      by_cases ht : t = ""
      · subst ht; simp
      · have he := hfilt t rfl ht
        simp [he]

/-- Witness for `c7_search_semantics` at a concrete mapping, query and
absent filter. -/
theorem c7_witness :
    entFile ∈ searchEntities esOne "f" none ↔
      (∃ k, (k, entFile) ∈ esOne)
        ∧ (∀ t, (none : Option String) = some t → t ≠ "" → entFile.type = t)
        ∧ (strContains (strLower entFile.name) (strLower "f")
            || strContains (strLower entFile.path) (strLower "f")) = true :=
  c7_search_semantics esOne "f" none entFile

/-! ## Claim C8 supporting lemmas -/

theorem entryOk_foldlDef (rel : String) :
    ∀ (defs : List (String × CodeEntity)) (st : IndexState),
      (∀ kv ∈ st.entities, entryOk kv) →
      (∀ kv ∈ defs, entryOk kv) →
      ∀ kv ∈ (defs.foldl (addDefEntity rel) st).entities, entryOk kv := by
  intro defs
  induction defs with
  | nil => intro st hst _; exact hst
  | cons d rest ih =>
    intro st hst hdefs
    rw [List.foldl_cons]
    refine ih _ ?_ (fun kv hkv => hdefs kv (List.mem_cons_of_mem _ hkv))
    intro kv hkv
    simp only [addDefEntity_entities] at hkv
    obtain ⟨dk, dv⟩ := d
    exact forall_insertA hst (hdefs _ (List.mem_cons_self _ _)) kv hkv

theorem tsParseFile_entryOk {pm : ParserModel} {content path : String}
    {prs : List (String × CodeEntity)} (hgp : goodParser pm)
    (h : tsParseFile pm content path = some prs) :
    ∀ kv ∈ prs, entryOk kv := by
  simp only [tsParseFile] at h
  intro kv hkv
  split at h
  · injection h with h
    subst h
    cases hkv
  · split at h
    · rename_i lang hlang hsupp
      cases hraw : pm.rawParse content path with
      | none => rw [hraw] at h; cases h
      | some ds =>
        rw [hraw] at h
        injection h with h
        subst h
        simp only [List.mem_map] at hkv
        obtain ⟨d, hd, rfl⟩ := hkv
        exact Or.inr ⟨hgp content path ds hraw d hd, rfl⟩
    · injection h with h
      subst h
      cases hkv

theorem entitiesOk_indexFile (pm : ParserModel) (fs : List FileRec)
    (root : List String) (st : IndexState) (f : FileRec)
    (hgp : goodParser pm) (hst : ∀ kv ∈ st.entities, entryOk kv) :
    ∀ kv ∈ (indexFile pm fs root st f).entities, entryOk kv := by
  obtain ⟨segs, oc⟩ := f
  cases oc with
  | none => exact hst
  | some content =>
    simp only [indexFile]
    set st1 : IndexState :=
      { st with
        entities := insertA st.entities (relStr segs)
          (fileEntity (relStr segs) (lastSeg segs) content),
        nodes := addNode st.nodes (relStr segs) } with hst1
    have h1 : ∀ kv ∈ st1.entities, entryOk kv :=
      forall_insertA hst (Or.inl ⟨rfl, rfl⟩)
    cases hparse : tsParseFile pm content (relStr segs) with
    | none => exact h1
    | some defs =>
      have h2 := entryOk_foldlDef (relStr segs) defs st1 h1 (tsParseFile_entryOk hgp hparse)
      cases himps : tsExtractImports pm content (relStr segs) with
      | none => exact h2
      | some imps =>
        intro kv hkv
        rw [foldlImp_entities] at hkv
        exact h2 kv hkv

theorem entitiesOk_buildFrom (pm : ParserModel) (fs : List FileRec)
    (root : List String) (exts : List String) (hgp : goodParser pm) :
    ∀ (files : List FileRec) (st : IndexState),
      (∀ kv ∈ st.entities, entryOk kv) →
      ∀ kv ∈ (buildFrom pm fs root exts st files).entities, entryOk kv := by
  intro files
  induction files with
  | nil => intro st hst; exact hst
  | cons f rest ih =>
    intro st hst
    refine ih _ ?_
    simp only [buildStep]
    split
    · split
      · exact hst
      · exact entitiesOk_indexFile pm fs root st f hgp hst
    · exact hst

/-! ## Claim C8 -/

/-- Claim C8 (confirmed): after any build (with a parser whose grammar layer
never labels a definition as file-kind, true of both source strategies),
every stored key is the entity's `path` for file-kind entities and
`path ++ "::" ++ name` for definition entities; moreover every insertion
with an existing key overwrites (the lookup afterwards yields the new
value). -/
theorem c8_key_derivation :
    ∀ (pm : ParserModel) (fs : List FileRec) (root : List String)
      (exts : List String), goodParser pm →
      (∀ kv ∈ (buildIndex pm fs root exts).entities,
          (kv.2.type = "file" ∧ kv.1 = kv.2.path)
            ∨ (kv.2.type ≠ "file" ∧ kv.1 = kv.2.path ++ "::" ++ kv.2.name))
        ∧ (∀ (m : List (String × CodeEntity)) (k : String) (v : CodeEntity),
            List.lookup k (insertA m k v) = some v) := by
  intro pm fs root exts hgp
  constructor
  · intro kv hkv
    exact entitiesOk_buildFrom pm fs root exts hgp fs emptyState
      (fun kv h => by cases h) kv hkv
  · exact lookup_insertA_self

/-- Witness for `c8_key_derivation` on a concrete build producing a file
entity and a function entity. -/
theorem c8_witness :
    goodParser pmFoo
      ∧ (∀ kv ∈ (buildIndex pmFoo fsFoo ["r"] extensionOrder).entities,
          (kv.2.type = "file" ∧ kv.1 = kv.2.path)
            ∨ (kv.2.type ≠ "file" ∧ kv.1 = kv.2.path ++ "::" ++ kv.2.name)) := by
  have hgp : goodParser pmFoo := by
    intro c p ds h d hd
    simp only [pmFoo] at h
    injection h with h
    subst h
    simp only [List.mem_singleton] at hd
    subst hd
    decide
  exact ⟨hgp, (c8_key_derivation pmFoo fsFoo ["r"] extensionOrder hgp).1⟩

/-! ## Claim C9 supporting lemmas -/

theorem shouldSkipParts_of_rootHit {root : List String}
    (rel : List String) (hroot : root.any partHit = true) :
    shouldSkipParts (root ++ rel) = true := by
  simp only [shouldSkipParts, List.any_append, hroot, Bool.true_or, Bool.true_and]

theorem buildFrom_rootHit (pm : ParserModel) (fs : List FileRec)
    (root : List String) (exts : List String)
    (hroot : root.any partHit = true) :
    ∀ (files : List FileRec) (st : IndexState),
      buildFrom pm fs root exts st files
        = { st with skippedCount := st.skippedCount
              + (files.filter (fun f => pySuffix (lastSeg f.relSegs) ∈ exts)).length } := by
  intro files
  induction files with
  | nil => intro st; simp [buildFrom]
  | cons f rest ih =>
    intro st
    have hskip : shouldSkipParts (absPath root f) = true :=
      shouldSkipParts_of_rootHit f.relSegs hroot
    by_cases hf : pySuffix (lastSeg f.relSegs) ∈ exts
    · have hstep : buildStep pm fs root exts st f
          = { st with skippedCount := st.skippedCount + 1 } := by
        unfold buildStep
        rw [if_pos hf, if_pos hskip]
      calc buildFrom pm fs root exts st (f :: rest)
          = buildFrom pm fs root exts (buildStep pm fs root exts st f) rest := rfl
        _ = { st with skippedCount := st.skippedCount + 1
                + (rest.filter (fun f => pySuffix (lastSeg f.relSegs) ∈ exts)).length } := by
              rw [hstep, ih]
        _ = { st with skippedCount := st.skippedCount
                + ((f :: rest).filter (fun f => pySuffix (lastSeg f.relSegs) ∈ exts)).length } := by
              simp only [List.filter_cons, if_pos (decide_eq_true hf), List.length_cons]
              congr 1
              omega
    · have hstep : buildStep pm fs root exts st f = st := by
        simp only [buildStep, if_neg hf]
      calc buildFrom pm fs root exts st (f :: rest)
          = buildFrom pm fs root exts (buildStep pm fs root exts st f) rest := rfl
        _ = { st with skippedCount := st.skippedCount
                + (rest.filter (fun f => pySuffix (lastSeg f.relSegs) ∈ exts)).length } := by
              rw [hstep, ih]
        _ = { st with skippedCount := st.skippedCount
                + ((f :: rest).filter (fun f => pySuffix (lastSeg f.relSegs) ∈ exts)).length } := by
              rw [List.filter_cons, if_neg (by simpa using hf)]

/-! ## Claim C9 -/

/-- Claim C9 (confirmed): the skip check runs on the full traversal path,
root segments included, so a root containing a dot-segment or a
skip-list-named segment (such as `build`) makes every candidate file
(right suffix) count as skipped: the build indexes nothing and the entity
mapping stays empty. -/
theorem c9_root_skip (pm : ParserModel) (fs : List FileRec)
    (root : List String) (exts : List String)
    (h : ∃ p ∈ root, partHit p = true) :
    (buildIndex pm fs root exts).entities = []
      ∧ (buildIndex pm fs root exts).fileCount = 0
      ∧ (buildIndex pm fs root exts).skippedCount
          = (fs.filter (fun f => pySuffix (lastSeg f.relSegs) ∈ exts)).length := by
  have hroot : root.any partHit = true := List.any_eq_true.2 h
  rw [buildIndex, buildFrom_rootHit pm fs root exts hroot fs emptyState]
  refine ⟨rfl, rfl, ?_⟩
  simp [emptyState]

/-- Witness for `c9_root_skip`: a root under a directory named `build` makes
the build of the two-file tree `fsMain` index nothing and count both files
as skipped. -/
theorem c9_witness :
    (∃ p ∈ (["build", "proj"] : List String), partHit p = true)
      ∧ (buildIndex pmMain fsMain ["build", "proj"] extensionOrder).entities = []
      ∧ (buildIndex pmMain fsMain ["build", "proj"] extensionOrder).fileCount = 0
      ∧ (buildIndex pmMain fsMain ["build", "proj"] extensionOrder).skippedCount
          = (fsMain.filter (fun f => pySuffix (lastSeg f.relSegs) ∈ extensionOrder)).length :=
  ⟨by decide, c9_root_skip pmMain fsMain ["build", "proj"] extensionOrder (by decide)⟩

/-! ## Claim C10 supporting lemmas -/

theorem hasRun_nil (l : List Char) : hasRun [] l = true := by
  cases l <;> simp [hasRun, List.isPrefixOf]

theorem searchKeep_empty_query (ot : Option String) (e : CodeEntity) :
    searchKeep (strLower "") ot e =
      (match ot with
       | some t => !(t ≠ "" && e.type ≠ t)
       | none => true) := by
  have hl : strLower "" = "" := rfl
  simp only [searchKeep, hl, strContains, hasRun_nil, Bool.or_self, Bool.and_true]

/-! ## Claim C10 -/

/-- Claim C10, as stated, is false on the code in the filtered case: for the
empty query with the kind filter given as the empty string, the result is
every entity (the code treats a falsy filter as absent), not the entities of
kind `""` — `esTwo` holds no entity of kind `""` yet both are returned. -/
theorem c10_counterexample :
    searchEntities esTwo "" (some "")
        = [⟨"a.py", "file", "a.py", ""⟩,
           ⟨"a.py", "function", "g", "def g(): pass"⟩]
      ∧ ∀ kv ∈ esTwo, kv.2.type ≠ "" := by
  refine ⟨by rfl, by decide⟩

/-- Claim C10 (amended): for the empty query, search returns every entity
when the kind filter is absent (and likewise when it is the empty string),
and exactly the entities of the given kind when a non-empty kind filter is
given — the empty string is a substring of every name and path. -/
theorem c10_empty_query :
    ∀ (es : List (String × CodeEntity)),
      searchEntities es "" none = es.map Prod.snd
        ∧ (∀ t, t ≠ "" →
            searchEntities es "" (some t)
              = (es.filter (fun kv => kv.2.type = t)).map Prod.snd) := by
  intro es
  constructor
  · unfold searchEntities
    rw [List.filter_congr
      (fun kv _ => searchKeep_empty_query none kv.2)]
    simp
  · intro t ht
    unfold searchEntities
    rw [List.filter_congr (fun kv _ => searchKeep_empty_query (some t) kv.2)]
    have : ∀ kv : String × CodeEntity,
        (!(t ≠ "" && kv.2.type ≠ t) : Bool) = decide (kv.2.type = t) := by
      intro kv
      by_cases hvt : kv.2.type = t <;> simp [ht, hvt]
    rw [List.filter_congr (fun kv _ => this kv)]

/-- Witness for `c10_empty_query` at the concrete mapping `esTwo` and the
non-empty kind `file`. -/
theorem c10_witness :
    (("file" : String) ≠ "")
      ∧ searchEntities esTwo "" (some "file")
          = (esTwo.filter (fun kv => kv.2.type = "file")).map Prod.snd :=
  ⟨by decide, (c10_empty_query esTwo).2 "file" (by decide)⟩

end CodeExplorer
